import Mathlib

/-!
Verification of the ScanNet preprocessing core
(`scripts/preprocess_scannet.py`, class `ScannetProcess`).

The Python functions are shallowly embedded as executable Lean
definitions:

* Python `dict`s become insertion-ordered association lists
  (`dictInsert`, `dictAppend`, `findVal`), matching CPython's
  insertion-order semantics (updating an existing key keeps its
  position, a new key is appended at the end).
* `numpy` arrays become `List`s; `uint32` stores are wrapped with
  `u32I` (reduction mod 2^32); the float entries are modelled as `ℚ`.
* Fallible operations return `Except PyErr`, with one constructor per
  Python exception family raised by the script (`KeyError`,
  `IndexError`, `ValueError`) plus `formatError` for the
  missing-`axisAlignment` failure, following the spec's error
  taxonomy (§7 FormatError covers the missing alignment record).
* I/O (file existence asserts, `open`, `json.load`, `csv.DictReader`,
  `o3d` mesh reading, `np.save`) is out of the model: every reader
  takes the already-decoded contents of its file (lines of the meta
  file, the `segGroups` records, the `segIndices` array, the
  two relevant columns of the label-mapping table), and "writing the
  output files" is modelled by returning `Except.ok` with the four
  arrays.
-/

/-- Python exceptions raised by the preprocessing script. `formatError`
stands for the failure on a metadata file with no `axisAlignment` line
(the spec's FormatError taxonomy entry). -/
inductive PyErr where
  | keyError
  | indexError
  | valueError
  | formatError
deriving DecidableEq, Repr

/-- Decidable equality of `Except` results, so that concrete runs of the
embedded functions can be checked by `decide`. -/
instance {ε α : Type} [DecidableEq ε] [DecidableEq α] :
    DecidableEq (Except ε α) := fun x y =>
  match x, y with
  | .error a, .error b =>
      if h : a = b then .isTrue (by rw [h])
      else .isFalse (by intro hh; injection hh; exact h (by assumption))
  | .error _, .ok _ => .isFalse (by intro hh; exact Except.noConfusion hh)
  | .ok _, .error _ => .isFalse (by intro hh; exact Except.noConfusion hh)
  | .ok a, .ok b =>
      if h : a = b then .isTrue (by rw [h])
      else .isFalse (by intro hh; injection hh; exact h (by assumption))

/-- Python `d[k] = v` on an insertion-ordered dict: replace in place if
the key exists, otherwise append at the end. -/
def dictInsert {α β : Type} [DecidableEq α] (k : α) (v : β) :
    List (α × β) → List (α × β)
  | [] => [(k, v)]
  | p :: rest => if p.1 = k then (k, v) :: rest else p :: dictInsert k v rest

/-- Python `d[k]` as an `Option`: first entry with the given key. -/
def findVal {α β : Type} [DecidableEq α] (k : α) : List (α × β) → Option β
  | [] => none
  | p :: rest => if p.1 = k then some p.2 else findVal k rest

/-- Decimal digit test on a character (as used by `int()` parsing). -/
def isDigitC (c : Char) : Bool := 48 ≤ c.toNat && c.toNat ≤ 57

/-- Whitespace test on a character. -/
def isSpaceC (c : Char) : Bool :=
  c == ' ' || c == '\t' || c == '\n' || c == '\r'

/-- Value of a list of decimal digits. -/
def digitsToNat (ds : List Char) : ℕ :=
  ds.foldl (fun a c => a * 10 + (c.toNat - 48)) 0

/-- Python `int(s)` on a string: strips surrounding whitespace, allows
an optional sign, then requires a nonempty run of digits.  Returns
`none` where Python raises `ValueError`.  (This is also the model of the
script's `represents_int`.) -/
def parseIntS (s : String) : Option ℤ :=
  let cs := ((s.toList.dropWhile isSpaceC).reverse.dropWhile isSpaceC).reverse
  match cs with
  | '-' :: ds =>
      if ds ≠ [] ∧ ds.all isDigitC then some (-(digitsToNat ds : ℤ)) else none
  | '+' :: ds =>
      if ds ≠ [] ∧ ds.all isDigitC then some (digitsToNat ds) else none
  | ds =>
      if ds ≠ [] ∧ ds.all isDigitC then some (digitsToNat ds) else none

/-- The `for row in reader: mapping[row[label_from]] = int(row[label_to])`
loop of `read_label_mapping`: builds the dict, failing with `ValueError`
when a value cell does not parse as an integer. -/
def buildRows : List (String × String) → List (String × ℤ) →
    Except PyErr (List (String × ℤ))
  | [], m => .ok m
  | (k, v) :: rest, m =>
      match parseIntS v with
      | none => .error .valueError
      | some n => buildRows rest (dictInsert k n m)

/-- The `{int(k): v for k, v in mapping.items()}` comprehension: fails
with `ValueError` on the first key that does not parse as an integer. -/
def rekeyInt : List (String × ℤ) → List (ℤ × ℤ) →
    Except PyErr (List (ℤ × ℤ))
  | [], m => .ok m
  | (k, v) :: rest, m =>
      match parseIntS k with
      | none => .error .valueError
      | some ik => rekeyInt rest (dictInsert ik v m)

/-- Result of `read_label_mapping`: either the original string-keyed
dict or the integer-rekeyed dict. -/
inductive LabelMapOut where
  | strKeyed : List (String × ℤ) → LabelMapOut
  | intKeyed : List (ℤ × ℤ) → LabelMapOut
deriving DecidableEq, Repr

/-- `ScannetProcess.read_label_mapping`, applied to the two relevant
columns of the already-decoded TSV rows.  After building the dict it
probes `list(mapping.keys())[0]` (an `IndexError` on an empty table) and
rekeys with `int` keys when that first key parses as an integer. -/
def readLabelMapping (rows : List (String × String)) :
    Except PyErr LabelMapOut :=
  match buildRows rows [] with
  | .error e => .error e
  | .ok [] => .error .indexError
  | .ok ((k0, v0) :: rest) =>
      if (parseIntS k0).isSome then
        match rekeyInt ((k0, v0) :: rest) [] with
        | .error e => .error e
        | .ok im => .ok (.intKeyed im)
      else .ok (.strKeyed ((k0, v0) :: rest))

/-- C10: a label-mapping table with a header row but zero data rows makes
`read_label_mapping` raise (the `list(mapping.keys())[0]` probe indexes an
empty list) instead of returning an empty mapping. -/
theorem c10_empty_table_raises :
    readLabelMapping [] = .error .indexError := rfl

/-- Python `d.setdefault`-style step of `read_segmentation`:
`if seg_id in seg_to_verts: seg_to_verts[seg_id].append(i)
 else: seg_to_verts[seg_id] = [i]` — appending keeps the entry's
position, a fresh key goes to the end of the dict. -/
def dictAppend (s : ℤ) (i : ℕ) : List (ℤ × List ℕ) → List (ℤ × List ℕ)
  | [] => [(s, [i])]
  | (k, vs) :: rest =>
      if k = s then (k, vs ++ [i]) :: rest else (k, vs) :: dictAppend s i rest

/-- The `for i in range(num_verts)` loop of `read_segmentation`,
carrying the running vertex index. -/
def buildSegMap : List ℤ → ℕ → List (ℤ × List ℕ) → List (ℤ × List ℕ)
  | [], _, m => m
  | s :: rest, i, m => buildSegMap rest (i + 1) (dictAppend s i m)

/-- `ScannetProcess.read_segmentation`, applied to the decoded
`segIndices` array: returns the segment-id → vertex-index map and
`num_verts`. -/
def readSegmentation (segIndices : List ℤ) :
    List (ℤ × List ℕ) × ℕ :=
  (buildSegMap segIndices 0 [], segIndices.length)

/-- Vertex list of a segment id, empty when the key is absent. -/
def lookupSegD (m : List (ℤ × List ℕ)) (s : ℤ) : List ℕ :=
  (findVal s m).getD []

/-- Positions (shifted by `i0`) at which a segment id occurs in the
`segIndices` array: the reference description of the inversion. -/
def segPositions (s : ℤ) : List ℤ → ℕ → List ℕ
  | [], _ => []
  | t :: rest, i =>
      if t = s then i :: segPositions s rest (i + 1)
      else segPositions s rest (i + 1)

theorem lookupSegD_dictAppend (m : List (ℤ × List ℕ)) (t : ℤ) (i : ℕ)
    (s : ℤ) :
    lookupSegD (dictAppend t i m) s =
      lookupSegD m s ++ (if t = s then [i] else []) := by
  induction m with
  | nil =>
      by_cases h : t = s <;>
        simp [dictAppend, lookupSegD, findVal, h]
  | cons p rest ih =>
      obtain ⟨k, vs⟩ := p
      by_cases hk : k = t
      · subst hk
        by_cases hs : k = s
        · subst hs
          simp [dictAppend, lookupSegD, findVal]
        · simp [dictAppend, lookupSegD, findVal, hs]
      · by_cases hs : k = s
        · subst hs
          have ht : ¬t = k := fun hh => hk hh.symm
          simp only [dictAppend, if_neg hk]
          simp [lookupSegD, findVal, ht]
        · simp only [dictAppend, if_neg hk]
          simpa [lookupSegD, findVal, hs] using ih

theorem lookupSegD_buildSegMap (l : List ℤ) :
    ∀ (i0 : ℕ) (m : List (ℤ × List ℕ)) (s : ℤ),
      lookupSegD (buildSegMap l i0 m) s =
        lookupSegD m s ++ segPositions s l i0 := by
  induction l with
  | nil => intro i0 m s; simp [buildSegMap, segPositions]
  | cons t rest ih =>
      intro i0 m s
      simp only [buildSegMap, segPositions]
      rw [ih, lookupSegD_dictAppend]
      by_cases h : t = s <;> simp [h]

theorem mem_segPositions (s : ℤ) (l : List ℤ) :
    ∀ (i0 i : ℕ),
      i ∈ segPositions s l i0 ↔ ∃ j, l.get? j = some s ∧ i = i0 + j := by
  induction l with
  | nil => intro i0 i; simp [segPositions]
  | cons t rest ih =>
      intro i0 i
      constructor
      · intro hmem
        by_cases h : t = s
        · rw [segPositions, if_pos h] at hmem
          rcases List.mem_cons.mp hmem with rfl | hmem'
          · exact ⟨0, by simp [h], by omega⟩
          · obtain ⟨j, hj, hij⟩ := (ih (i0 + 1) i).mp hmem'
            exact ⟨j + 1, by simpa using hj, by omega⟩
        · rw [segPositions, if_neg h] at hmem
          obtain ⟨j, hj, hij⟩ := (ih (i0 + 1) i).mp hmem
          exact ⟨j + 1, by simpa using hj, by omega⟩
      · rintro ⟨j, hj, rfl⟩
        cases j with
        | zero =>
            have ht : t = s := by simpa using hj
            rw [segPositions, if_pos ht]
            simp
        | succ j =>
            have hj' : rest.get? j = some s := by simpa using hj
            have hmem := (ih (i0 + 1) (i0 + (j + 1))).mpr ⟨j, hj', by omega⟩
            by_cases h : t = s
            · rw [segPositions, if_pos h]
              exact List.mem_cons_of_mem _ hmem
            · rw [segPositions, if_neg h]
              exact hmem

/-- C8: the segment→vertices map built by `read_segmentation` exactly
inverts the per-vertex segment array: a vertex index `i < vertex_count`
appears in the vertex list of a segment id `s` iff `s` is the segment id
stored at position `i` of `segIndices` — hence in exactly one list. -/
theorem c8_segmentation_inversion (segIndices : List ℤ) (i : ℕ)
    (hi : i < segIndices.length) (s : ℤ) :
    i ∈ lookupSegD (readSegmentation segIndices).1 s ↔
      segIndices.get ⟨i, hi⟩ = s := by
  have hchar := lookupSegD_buildSegMap segIndices 0 [] s
  simp only [readSegmentation]
  rw [hchar]
  simp only [lookupSegD, findVal, Option.getD_none, List.nil_append]
  rw [mem_segPositions]
  constructor
  · rintro ⟨j, hj, hij⟩
    have hji : j = i := by omega
    subst hji
    rw [List.get?_eq_get hi] at hj
    exact Option.some.inj hj
  · intro h
    exact ⟨i, by rw [List.get?_eq_get hi, h], by omega⟩

/-- Witness for C8 on the concrete array `[7, 7, 4]`. -/
theorem c8_witness :
    (0 : ℕ) < ([7, 7, 4] : List ℤ).length ∧
      (0 ∈ lookupSegD (readSegmentation [7, 7, 4]).1 7 ↔
        ([7, 7, 4] : List ℤ).get ⟨0, by decide⟩ = 7) :=
  ⟨by decide, c8_segmentation_inversion [7, 7, 4] 0 (by decide) 7⟩

/-- One record of the aggregation file's `segGroups` array. -/
structure AggGroup where
  objectId : ℤ
  label : String
  segments : List ℤ
deriving DecidableEq, Repr

/-- Heap state while reading the aggregation file.  Python's two dicts
hold *references* to list objects (`object_id_to_segs[object_id] = segs`
and `label_to_segs[label] = segs` alias the same list), so both maps
store indices into a `store` of list objects and
`label_to_segs[label].extend(segs)` mutates the shared cell. -/
structure AggSt where
  objMap : List (ℤ × ℕ)
  labMap : List (String × ℕ)
  store : List (List ℤ)
deriving DecidableEq, Repr

/-- One iteration of the `for i in range(num_objects)` loop of
`read_aggregation`: allocate the group's `segments` list, bind
`object_id = objectId + 1` to it, and either extend the existing list
shared under this label or bind the label to the same fresh list. -/
def aggStep (st : AggSt) (g : AggGroup) : AggSt :=
  let r := st.store.length
  let store1 := st.store ++ [g.segments]
  let objMap1 := dictInsert (g.objectId + 1) r st.objMap
  match findVal g.label st.labMap with
  | some r0 =>
      ⟨objMap1, st.labMap, store1.set r0 (store1.getD r0 [] ++ g.segments)⟩
  | none => ⟨objMap1, dictInsert g.label r st.labMap, store1⟩

/-- Materialize a reference map into the value map it denotes. -/
def resolveRefs {α : Type} [DecidableEq α] (store : List (List ℤ))
    (m : List (α × ℕ)) : List (α × List ℤ) :=
  m.map (fun p => (p.1, store.getD p.2 []))

/-- `ScannetProcess.read_aggregation`, applied to the decoded
`segGroups` records: returns `(object_id_to_segs, label_to_segs)`. -/
def readAggregation (groups : List AggGroup) :
    List (ℤ × List ℤ) × List (String × List ℤ) :=
  let st := groups.foldl aggStep ⟨[], [], []⟩
  (resolveRefs st.store st.objMap, resolveRefs st.store st.labMap)

theorem findVal_append_of_none {α β : Type} [DecidableEq α] (k : α)
    {m1 : List (α × β)} (m2 : List (α × β)) (h : findVal k m1 = none) :
    findVal k (m1 ++ m2) = findVal k m2 := by
  induction m1 with
  | nil => simp
  | cons p rest ih =>
      by_cases hp : p.1 = k
      · simp [findVal, hp] at h
      · simp only [findVal, if_neg hp] at h
        simpa [findVal, hp] using ih h

theorem dictInsert_of_none {α β : Type} [DecidableEq α] {k : α}
    {m : List (α × β)} (v : β) (h : findVal k m = none) :
    dictInsert k v m = m ++ [(k, v)] := by
  induction m with
  | nil => simp [dictInsert]
  | cons p rest ih =>
      by_cases hp : p.1 = k
      · simp [findVal, hp] at h
      · simp only [findVal, if_neg hp] at h
        simp [dictInsert, hp, ih h]

theorem mem_dictInsert {α β : Type} [DecidableEq α] {k : α} {v : β}
    {m : List (α × β)} {e : α × β} (h : e ∈ dictInsert k v m) :
    e = (k, v) ∨ e ∈ m := by
  induction m with
  | nil => simpa [dictInsert] using h
  | cons p rest ih =>
      by_cases hp : p.1 = k
      · rw [dictInsert, if_pos hp] at h
        rcases List.mem_cons.mp h with rfl | h'
        · exact Or.inl rfl
        · exact Or.inr (List.mem_cons_of_mem _ h')
      · rw [dictInsert, if_neg hp] at h
        rcases List.mem_cons.mp h with rfl | h'
        · exact Or.inr (List.mem_cons_self _ _)
        · rcases ih h' with h'' | h''
          · exact Or.inl h''
          · exact Or.inr (List.mem_cons_of_mem _ h'')

theorem keys_dictInsert_subset {α β : Type} [DecidableEq α] {k a : α}
    {v : β} {m : List (α × β)}
    (h : a ∈ (dictInsert k v m).map Prod.fst) :
    a = k ∨ a ∈ m.map Prod.fst := by
  rcases List.mem_map.mp h with ⟨e, he, rfl⟩
  rcases mem_dictInsert he with rfl | h'
  · exact Or.inl rfl
  · exact Or.inr (List.mem_map_of_mem _ h')

theorem keys_dictInsert_nodup {α β : Type} [DecidableEq α] (k : α)
    (v : β) {m : List (α × β)} (h : (m.map Prod.fst).Nodup) :
    ((dictInsert k v m).map Prod.fst).Nodup := by
  induction m with
  | nil => simp [dictInsert]
  | cons p rest ih =>
      rw [List.map_cons, List.nodup_cons] at h
      obtain ⟨hp, hrest⟩ := h
      by_cases hpk : p.1 = k
      · rw [dictInsert, if_pos hpk, List.map_cons, List.nodup_cons]
        exact ⟨by rwa [hpk] at hp, hrest⟩
      · rw [dictInsert, if_neg hpk, List.map_cons, List.nodup_cons]
        refine ⟨?_, ih hrest⟩
        intro hmem
        rcases keys_dictInsert_subset hmem with rfl | h'
        · exact hpk rfl
        · exact hp h'

/-- C2 counterexample: with two groups sharing the label string
(`objectId 0` with segments `[1, 2]` and `objectId 1` with segments
`[3]`), `read_aggregation` returns `[1, 2, 3]` for object id 1 — not
that group's own list `[1, 2]` — because `label_to_segs[label]` aliases
the first group's list and `extend` mutates it. -/
theorem c2_counterexample :
    (readAggregation [⟨0, "chair", [1, 2]⟩, ⟨1, "chair", [3]⟩]).1 =
        [(1, [1, 2, 3]), (2, [3])] ∧
      findVal 1 (readAggregation
          [⟨0, "chair", [1, 2]⟩, ⟨1, "chair", [3]⟩]).1 ≠
        some [1, 2] := by decide

/-- Reference list of `(object_id, store index)` pairs allocated for a
run of groups, the first group's list living at store cell `n`. -/
def refsFrom (n : ℕ) : List AggGroup → List (ℤ × ℕ)
  | [] => []
  | g :: rest => (g.objectId + 1, n) :: refsFrom (n + 1) rest

theorem aggFold_distinct (groups : List AggGroup) :
    ∀ st : AggSt,
      (∀ g ∈ groups, findVal g.label st.labMap = none) →
      (groups.map (fun g => g.label)).Nodup →
      (∀ g ∈ groups, findVal (g.objectId + 1) st.objMap = none) →
      (groups.map (fun g => g.objectId + 1)).Nodup →
      ((groups.foldl aggStep st).store =
          st.store ++ groups.map (fun g => g.segments)) ∧
        ((groups.foldl aggStep st).objMap =
          st.objMap ++ refsFrom st.store.length groups) := by
  induction groups with
  | nil => intro st _ _ _ _; simp [refsFrom]
  | cons g rest ih =>
      intro st hlab hnd hobj hond
      have hg : findVal g.label st.labMap = none :=
        hlab g (List.mem_cons_self _ _)
      have hgo : findVal (g.objectId + 1) st.objMap = none :=
        hobj g (List.mem_cons_self _ _)
      rw [List.map_cons, List.nodup_cons] at hnd
      obtain ⟨hgnot, hndrest⟩ := hnd
      rw [List.map_cons, List.nodup_cons] at hond
      obtain ⟨hgonot, hondrest⟩ := hond
      have hstep : (g :: rest).foldl aggStep st = rest.foldl aggStep
          ⟨dictInsert (g.objectId + 1) st.store.length st.objMap,
            dictInsert g.label st.store.length st.labMap,
            st.store ++ [g.segments]⟩ := by
        simp [aggStep, hg]
      set st' : AggSt :=
        ⟨dictInsert (g.objectId + 1) st.store.length st.objMap,
          dictInsert g.label st.store.length st.labMap,
          st.store ++ [g.segments]⟩ with hst'
      have hlab' : ∀ g' ∈ rest, findVal g'.label st'.labMap = none := by
        intro g' hg'
        have h1 : findVal g'.label st.labMap = none :=
          hlab g' (List.mem_cons_of_mem _ hg')
        have hne : ¬g.label = g'.label := by
          intro he
          exact hgnot (he ▸ List.mem_map_of_mem _ hg')
        show findVal g'.label
            (dictInsert g.label st.store.length st.labMap) = none
        rw [dictInsert_of_none _ hg, findVal_append_of_none _ _ h1]
        simp [findVal, hne]
      have hobj' : ∀ g' ∈ rest,
          findVal (g'.objectId + 1) st'.objMap = none := by
        intro g' hg'
        have h1 : findVal (g'.objectId + 1) st.objMap = none :=
          hobj g' (List.mem_cons_of_mem _ hg')
        have hne : ¬g.objectId + 1 = g'.objectId + 1 := by
          intro he
          exact hgonot (he ▸ List.mem_map_of_mem _ hg')
        show findVal (g'.objectId + 1)
            (dictInsert (g.objectId + 1) st.store.length st.objMap) = none
        rw [dictInsert_of_none _ hgo, findVal_append_of_none _ _ h1]
        simp [findVal, hne]
      obtain ⟨ihs, iho⟩ := ih st' hlab' hndrest hobj' hondrest
      constructor
      · rw [hstep, ihs]
        simp [hst', List.append_assoc]
      · rw [hstep, iho]
        have hlen : st'.store.length = st.store.length + 1 := by
          simp [hst']
        rw [hlen]
        show dictInsert (g.objectId + 1) st.store.length st.objMap ++
            refsFrom (st.store.length + 1) rest =
          st.objMap ++ refsFrom st.store.length (g :: rest)
        rw [refsFrom, dictInsert_of_none _ hgo, List.append_assoc]
        rfl

theorem resolveRefs_refsFrom (groups : List AggGroup) :
    ∀ pre : List (List ℤ),
      resolveRefs (pre ++ groups.map (fun g => g.segments))
          (refsFrom pre.length groups) =
        groups.map (fun g => (g.objectId + 1, g.segments)) := by
  induction groups with
  | nil => intro pre; simp [refsFrom, resolveRefs]
  | cons g rest ih =>
      intro pre
      rw [refsFrom]
      simp only [resolveRefs, List.map_cons]
      have hhead : (pre ++ g.segments ::
          rest.map (fun g => g.segments)).getD pre.length [] =
            g.segments := by
        rw [List.getD_append_right _ _ _ _ (le_refl _)]
        simp
      have hassoc : pre ++ g.segments :: rest.map (fun g => g.segments) =
          (pre ++ [g.segments]) ++ rest.map (fun g => g.segments) := by
        simp
      have htail : resolveRefs
          (pre ++ g.segments :: rest.map (fun g => g.segments))
          (refsFrom (pre.length + 1) rest) =
            rest.map (fun g => (g.objectId + 1, g.segments)) := by
        have hlen : pre.length + 1 = (pre ++ [g.segments]).length := by
          simp
        rw [hassoc, hlen, ih]
      simp only [resolveRefs] at htail
      rw [hhead, htail]

/-- C2 amended: for well-formed aggregation input (distinct object ids)
in which no two groups share a label string, `read_aggregation`'s object
map has exactly the keys `objectId + 1` in group order, each mapped to
that group's own segment list.  (When labels repeat, the counterexample
shows the first group's stored list is instead extended in place with
the later same-label groups' segments, because the label map aliases
the same list object.) -/
theorem c2_amended_object_map (groups : List AggGroup)
    (hlab : (groups.map (fun g => g.label)).Nodup)
    (hobj : (groups.map (fun g => g.objectId)).Nodup) :
    (readAggregation groups).1 =
      groups.map (fun g => (g.objectId + 1, g.segments)) := by
  have hobj1 : (groups.map (fun g => g.objectId + 1)).Nodup := by
    have hcomp : groups.map (fun g => g.objectId + 1) =
        (groups.map (fun g => g.objectId)).map (fun x => x + 1) := by
      rw [List.map_map]
      rfl
    rw [hcomp]
    exact hobj.map (fun a b h => by omega)
  obtain ⟨hs, ho⟩ := aggFold_distinct groups ⟨[], [], []⟩
    (fun _ _ => rfl) hlab (fun _ _ => rfl) hobj1
  simp only [readAggregation]
  rw [ho, hs]
  simp only [List.nil_append]
  have hres := resolveRefs_refsFrom groups []
  simpa using hres

/-- Witness for the amended C2 on two groups with distinct labels. -/
theorem c2_witness :
    ((([⟨0, "chair", [1, 2]⟩, ⟨1, "table", [3]⟩] : List AggGroup).map
        (fun g => g.label)).Nodup ∧
      (([⟨0, "chair", [1, 2]⟩, ⟨1, "table", [3]⟩] : List AggGroup).map
        (fun g => g.objectId)).Nodup) ∧
      (readAggregation [⟨0, "chair", [1, 2]⟩, ⟨1, "table", [3]⟩]).1 =
        [(1, [1, 2]), (2, [3])] :=
  ⟨⟨by decide, by decide⟩,
    c2_amended_object_map [⟨0, "chair", [1, 2]⟩, ⟨1, "table", [3]⟩]
      (by decide) (by decide)⟩

theorem rekeyInt_ok_of_all (l : List (String × ℤ)) :
    ∀ m, (∀ p ∈ l, (parseIntS p.1).isSome = true) →
      ∃ im, rekeyInt l m = .ok im := by
  induction l with
  | nil => intro m _; exact ⟨m, rfl⟩
  | cons q rest ih =>
      intro m hall
      obtain ⟨k, v⟩ := q
      have hk := hall (k, v) (List.mem_cons_self _ _)
      rw [Option.isSome_iff_exists] at hk
      obtain ⟨ik, hik⟩ := hk
      simp only [rekeyInt, hik]
      exact ih _ (fun q hq => hall q (List.mem_cons_of_mem _ hq))

theorem rekeyInt_err_of_exists (l : List (String × ℤ)) :
    ∀ m, (∃ p ∈ l, parseIntS p.1 = none) →
      rekeyInt l m = .error .valueError := by
  induction l with
  | nil => rintro m ⟨p, hp, _⟩; simp at hp
  | cons q rest ih =>
      rintro m ⟨p, hp, hnone⟩
      obtain ⟨k, v⟩ := q
      rcases List.mem_cons.mp hp with rfl | hp'
      · simp only [rekeyInt, hnone]
      · cases hik : parseIntS k with
        | none => simp [rekeyInt, hik]
        | some ik =>
            simp only [rekeyInt, hik]
            exact ih _ ⟨p, hp', hnone⟩

/-- C4 counterexample: on the table `{"1": 2, "a": 3}` the first key
parses as an integer, so `read_label_mapping` attempts the integer
rekeying and `int("a")` raises a ValueError — the claim instead asserts
that the string-keyed mapping is returned unchanged whenever some key
(here `"a"`) is not parseable. -/
theorem c4_counterexample :
    readLabelMapping [("1", "2"), ("a", "3")] = .error .valueError ∧
      readLabelMapping [("1", "2"), ("a", "3")] ≠
        .ok (.strKeyed [("1", 2), ("a", 3)]) := by decide

/-- C4 amended: `read_label_mapping` decides whether to rekey by probing
only the *first* inserted key.  If that first key does not parse as an
integer the string-keyed mapping is returned unchanged (even if all
other keys would parse); if the first key parses, the mapping is
rekeyed with integer keys when every key parses, and the call fails
with a ValueError when some later key does not. -/
theorem c4_amended_first_key_probe (rows : List (String × String))
    (k0 : String) (v0 : ℤ) (rest : List (String × ℤ))
    (hb : buildRows rows [] = .ok ((k0, v0) :: rest)) :
    (parseIntS k0 = none →
        readLabelMapping rows = .ok (.strKeyed ((k0, v0) :: rest))) ∧
      ((parseIntS k0).isSome = true →
        ((∀ p ∈ (k0, v0) :: rest, (parseIntS p.1).isSome = true) →
            ∃ im, readLabelMapping rows = .ok (.intKeyed im)) ∧
          ((∃ p ∈ (k0, v0) :: rest, parseIntS p.1 = none) →
            readLabelMapping rows = .error .valueError)) := by
  refine ⟨?_, ?_⟩
  · intro hnone
    simp [readLabelMapping, hb, hnone]
  · intro hsome
    refine ⟨?_, ?_⟩
    · intro hall
      obtain ⟨im, him⟩ := rekeyInt_ok_of_all _ [] hall
      exact ⟨im, by simp [readLabelMapping, hb, hsome, him]⟩
    · intro hex
      have herr := rekeyInt_err_of_exists _ [] hex
      simp [readLabelMapping, hb, hsome, herr]

/-- Witness for the amended C4: a table whose first key is not numeric
is returned unchanged as a string-keyed mapping. -/
theorem c4_witness :
    (buildRows [("a", "1")] [] = .ok [("a", 1)]) ∧
      parseIntS "a" = none ∧
      readLabelMapping [("a", "1")] = .ok (.strKeyed [("a", 1)]) :=
  ⟨by decide, by decide,
    (c4_amended_first_key_probe [("a", "1")] "a" 1 [] (by decide)).1
      (by decide)⟩

/-- Python `line.rstrip()`: drop trailing whitespace. -/
def rstripL (cs : List Char) : List Char :=
  (cs.reverse.dropWhile isSpaceC).reverse

/-- The character set of Python `strip('axisAlignment = ')` (strip takes
a set of characters, not a literal). -/
def axisChars : List Char := "axisAlignment = ".toList

/-- Membership in the strip character set. -/
def inAxisSet (c : Char) : Bool := axisChars.contains c

/-- Python `s.strip('axisAlignment = ')`: remove characters of the set
from both ends. -/
def stripAxisSet (cs : List Char) : List Char :=
  ((cs.dropWhile inAxisSet).reverse.dropWhile inAxisSet).reverse

/-- Python `s.split(' ')` with an explicit separator: split at every
single space, keeping empty tokens. -/
def splitOnSpace : List Char → List (List Char)
  | [] => [[]]
  | c :: rest =>
      if c == ' ' then [] :: splitOnSpace rest
      else
        match splitOnSpace rest with
        | [] => [[c]]
        | t :: ts => (c :: t) :: ts

/-- Exponent part of a float literal (after `e`/`E`). -/
def parseExpPart : List Char → Option ℤ
  | [] => none
  | '-' :: ds =>
      if ds ≠ [] ∧ ds.all isDigitC then some (-(digitsToNat ds : ℤ)) else none
  | '+' :: ds =>
      if ds ≠ [] ∧ ds.all isDigitC then some (digitsToNat ds) else none
  | ds =>
      if ds ≠ [] ∧ ds.all isDigitC then some (digitsToNat ds) else none

/-- Python `float(s)` on decimal notation (sign, digits, optional
fraction, optional exponent), with the value carried exactly in `ℚ`.
Returns `none` where Python raises `ValueError`. -/
def parseFloatQ (cs : List Char) : Option ℚ :=
  let sgn : Bool × List Char :=
    match cs with
    | '-' :: t => (true, t)
    | '+' :: t => (false, t)
    | _ => (false, cs)
  let ip := sgn.2.takeWhile isDigitC
  let r1 := sgn.2.dropWhile isDigitC
  let fr : List Char × List Char :=
    match r1 with
    | '.' :: t => (t.takeWhile isDigitC, t.dropWhile isDigitC)
    | _ => ([], r1)
  if ip.isEmpty && fr.1.isEmpty then none
  else
    let mant : ℚ :=
      (digitsToNat ip : ℚ) + (digitsToNat fr.1 : ℚ) / ((10 : ℚ) ^ fr.1.length)
    let signed := if sgn.1 then -mant else mant
    match fr.2 with
    | [] => some signed
    | 'e' :: t => (parseExpPart t).map (fun e => signed * (10 : ℚ) ^ e)
    | 'E' :: t => (parseExpPart t).map (fun e => signed * (10 : ℚ) ^ e)
    | _ => none

/-- Whether `pat` occurs at the start of the second list. -/
def seqStartsAt : List Char → List Char → Bool
  | [], _ => true
  | _ :: _, [] => false
  | a :: as, b :: bs => a == b && seqStartsAt as bs

/-- Whether `pat` occurs as a contiguous run anywhere in the list:
Python's `pat in line` on strings. -/
def hasSeq (pat : List Char) : List Char → Bool
  | [] => seqStartsAt pat []
  | c :: rest => seqStartsAt pat (c :: rest) || hasSeq pat rest

/-- The searched key of the metadata file. -/
def axisKey : List Char := "axisAlignment".toList

/-- The `if 'axisAlignment' in line` test. -/
def hasAxisKey (line : List Char) : Bool := hasSeq axisKey line

/-- The axis-alignment-matrix loading block of `export` (lines 158-171):
take the first metadata line containing the key, parse
`line.rstrip().strip('axisAlignment = ').split(' ')` as floats, reshape
to 4×4.  With no matching line the Python loop leaves
`axis_align_matrix` unbound and the scene fails (`formatError` in the
spec's taxonomy); a non-float token or a token count other than 16
raises a ValueError. -/
def loadAxisAlign (lines : List (List Char)) :
    Except PyErr (Fin 4 → Fin 4 → ℚ) :=
  match lines.find? hasAxisKey with
  | none => .error .formatError
  | some line =>
      let toks := splitOnSpace (stripAxisSet (rstripL line))
      match toks.mapM parseFloatQ with
      | none => .error .valueError
      | some floats =>
          if floats.length = 16 then
            .ok (fun i j => floats.getD (4 * i.val + j.val) 0)
          else .error .valueError

/-- One mesh vertex: position (x,y,z) and color (r,g,b), the six numpy
columns of `read_mesh_vertices_rgb`. -/
structure V6 where
  x : ℚ
  y : ℚ
  z : ℚ
  r : ℚ
  g : ℚ
  b : ℚ
deriving DecidableEq, Repr

/-- The homogeneous coordinates `pts[i] = [x, y, z, 1]` built by
`export` before the alignment product. -/
def pts4 (v : V6) : Fin 4 → ℚ := fun k =>
  if k.val = 0 then v.x
  else if k.val = 1 then v.y
  else if k.val = 2 then v.z
  else 1

/-- Matrix transpose, as in `axis_align_matrix.transpose()`. -/
def transp (M : Fin 4 → Fin 4 → ℚ) : Fin 4 → Fin 4 → ℚ := fun i j => M j i

/-- Dot product of two 4-vectors (one row of `np.dot`). -/
def dot4 (a b : Fin 4 → ℚ) : ℚ :=
  a 0 * b 0 + a 1 * b 1 + a 2 * b 2 + a 3 * b 3

/-- One vertex after `pts = np.dot(pts, M.T); mesh_vertices[:, 0:3] =
pts[:, 0:3]`: the position columns are overwritten with the first three
entries of the product row, the color columns are untouched. -/
def alignRow (M : Fin 4 → Fin 4 → ℚ) (v : V6) : V6 :=
  { x := dot4 (pts4 v) (fun k => transp M k 0)
    y := dot4 (pts4 v) (fun k => transp M k 1)
    z := dot4 (pts4 v) (fun k => transp M k 2)
    r := v.r
    g := v.g
    b := v.b }

/-- The whole-array alignment step of `export`. -/
def applyAlignmentAll (M : Fin 4 → Fin 4 → ℚ) (mesh : List V6) :
    List V6 :=
  mesh.map (alignRow M)

/-- numpy `uint32` storage of a Python int. -/
def u32I (x : ℤ) : ℕ := (x % 4294967296).toNat

/-- numpy fancy assignment `arr[verts] = v`. -/
def setAll (v : ℕ) (ids : List ℕ) (verts : List ℕ) : List ℕ :=
  verts.foldl (fun a i => a.set i v) ids

/-- The inner `for seg in segs: verts = seg_to_verts[seg];
label_ids[verts] = label_id` loop (KeyError on an unknown segment). -/
def assignSegs (segMap : List (ℤ × List ℕ)) (v : ℕ) :
    List ℤ → List ℕ → Except PyErr (List ℕ)
  | [], ids => .ok ids
  | seg :: rest, ids =>
      match findVal seg segMap with
      | none => .error .keyError
      | some verts => assignSegs segMap v rest (setAll v ids verts)

/-- Python `label_map[label]`: a KeyError when the label is absent —
including the case where the whole mapping was rekeyed to integer keys,
since a string never equals an int key. -/
def lookupLabel : LabelMapOut → String → Except PyErr ℤ
  | .strKeyed m, s =>
      match findVal s m with
      | some v => .ok v
      | none => .error .keyError
  | .intKeyed _, _ => .error .keyError

/-- The `for label, segs in label_to_segs.items()` loop of `export`,
projecting the class id of each label onto the member vertices (stored
as uint32). -/
def labelLoop (lm : LabelMapOut) (segMap : List (ℤ × List ℕ)) :
    List (String × List ℤ) → List ℕ → Except PyErr (List ℕ)
  | [], ids => .ok ids
  | (lab, segs) :: rest, ids =>
      match lookupLabel lm lab with
      | .error e => .error e
      | .ok lid =>
          match assignSegs segMap (u32I lid) segs ids with
          | .error e => .error e
          | .ok ids' => labelLoop lm segMap rest ids'

/-- The inner segment loop of the `for object_id, segs in
object_id_to_segs.items()` loop: assigns the instance id to the member
vertices and records `object_id_to_label_id[object_id] =
label_ids[verts][0]` on first encounter (an IndexError on an empty
vertex list). -/
def instSegs (segMap : List (ℤ × List ℕ)) (labelIds : List ℕ) (oid : ℤ) :
    List ℤ → List ℕ → List (ℤ × ℕ) →
      Except PyErr (List ℕ × List (ℤ × ℕ))
  | [], ids, o2l => .ok (ids, o2l)
  | seg :: rest, ids, o2l =>
      match findVal seg segMap with
      | none => .error .keyError
      | some verts =>
          match findVal oid o2l with
          | some _ => instSegs segMap labelIds oid rest (setAll (u32I oid) ids verts) o2l
          | none =>
              match verts with
              | [] => .error .indexError
              | v0 :: _ =>
                  instSegs segMap labelIds oid rest
                    (setAll (u32I oid) ids verts)
                    (dictInsert oid (labelIds.getD v0 0) o2l)

/-- The outer instance-id loop of `export`. -/
def instLoop (segMap : List (ℤ × List ℕ)) (labelIds : List ℕ) :
    List (ℤ × List ℤ) → List ℕ → List (ℤ × ℕ) →
      Except PyErr (List ℕ × List (ℤ × ℕ))
  | [], ids, o2l => .ok (ids, o2l)
  | (oid, segs) :: rest, ids, o2l =>
      match instSegs segMap labelIds oid segs ids o2l with
      | .error e => .error e
      | .ok (ids', o2l') => instLoop segMap labelIds rest ids' o2l'

/-- One row of the `instance_bboxes` array: center, extent, class id. -/
structure BBox where
  cx : ℚ
  cy : ℚ
  cz : ℚ
  dx : ℚ
  dy : ℚ
  dz : ℚ
  lab : ℚ
deriving DecidableEq, Repr

/-- A row of `np.zeros((num_instances, 7))`. -/
def zeroBB : BBox := ⟨0, 0, 0, 0, 0, 0, 0⟩

/-- `mesh_vertices[instance_ids == obj_id, 0:3]`: positions of the
vertices carrying the given instance id (elementwise comparison of the
uint32 array with the Python int). -/
def memberPosList (mv : List V6) (ids : List ℕ) (oid : ℤ) :
    List (ℚ × ℚ × ℚ) :=
  ((mv.zip ids).filter (fun p => ((p.2 : ℤ) == oid))).map
    (fun p => (p.1.x, p.1.y, p.1.z))

/-- The per-instance bounding box of `export`: per-axis min/max over the
member positions, center `(min+max)/2`, extent `max-min`, class id. -/
def mkBBox (p : ℚ × ℚ × ℚ) (ps : List (ℚ × ℚ × ℚ)) (lid : ℕ) : BBox :=
  let xmin := (ps.map (fun q => q.1)).foldl min p.1
  let ymin := (ps.map (fun q => q.2.1)).foldl min p.2.1
  let zmin := (ps.map (fun q => q.2.2)).foldl min p.2.2
  let xmax := (ps.map (fun q => q.1)).foldl max p.1
  let ymax := (ps.map (fun q => q.2.1)).foldl max p.2.1
  let zmax := (ps.map (fun q => q.2.2)).foldl max p.2.2
  ⟨(xmin + xmax) / 2, (ymin + ymax) / 2, (zmin + zmax) / 2,
    xmax - xmin, ymax - ymin, zmax - zmin, (lid : ℚ)⟩

/-- numpy row assignment `instance_bboxes[obj_id - 1, :] = bbox` with
Python/numpy negative-index wrapping and IndexError semantics. -/
def setRow (bbs : List BBox) (idx : ℤ) (row : BBox) :
    Except PyErr (List BBox) :=
  if 0 ≤ idx then
    if idx.toNat < bbs.length then .ok (bbs.set idx.toNat row)
    else .error .indexError
  else
    if (-idx).toNat ≤ bbs.length then
      .ok (bbs.set (bbs.length - (-idx).toNat) row)
    else .error .indexError

/-- The bounding-box loop of `export` (lines 195-211): for each object
id, look up its label id, gather the member positions (the boolean-mask
indexing first checks that the mask length matches the vertex array),
skip empty instances, and write the box into row `obj_id - 1`. -/
def bboxLoop (mv : List V6) (instIds : List ℕ) (o2l : List (ℤ × ℕ)) :
    List (ℤ × List ℤ) → List BBox → Except PyErr (List BBox)
  | [], bbs => .ok bbs
  | (oid, _) :: rest, bbs =>
      match findVal oid o2l with
      | none => .error .keyError
      | some lid =>
          if mv.length = instIds.length then
            match memberPosList mv instIds oid with
            | [] => bboxLoop mv instIds o2l rest bbs
            | p :: ps =>
                match setRow bbs (oid - 1) (mkBBox p ps lid) with
                | .error e => .error e
                | .ok bbs' => bboxLoop mv instIds o2l rest bbs'
          else .error .indexError

/-- The five results of `ScannetProcess.export`. -/
structure ExportOut where
  vertices : List V6
  semLabels : List ℕ
  insLabels : List ℕ
  bboxes : List BBox
  obj2lab : List (ℤ × ℕ)
deriving DecidableEq, Repr

/-- `ScannetProcess.export` (named `exportScene` because `export` is a
Lean keyword), applied to the decoded contents of the five input files:
mesh vertices, metadata lines, aggregation groups, segmentation
indices, and label-mapping rows. -/
def exportScene (mesh : List V6) (metaLines : List (List Char))
    (groups : List AggGroup) (segIndices : List ℤ)
    (labelRows : List (String × String)) : Except PyErr ExportOut :=
  match readLabelMapping labelRows with
  | .error e => .error e
  | .ok lm =>
      match loadAxisAlign metaLines with
      | .error e => .error e
      | .ok M =>
          let mv := applyAlignmentAll M mesh
          let agg := readAggregation groups
          let sv := readSegmentation segIndices
          match labelLoop lm sv.1 agg.2 (List.replicate sv.2 0) with
          | .error e => .error e
          | .ok labelIds =>
              match instLoop sv.1 labelIds agg.1
                  (List.replicate sv.2 0) [] with
              | .error e => .error e
              | .ok (instIds, o2l) =>
                  match bboxLoop mv instIds o2l agg.1
                      (List.replicate agg.1.length zeroBB) with
                  | .error e => .error e
                  | .ok bbs => .ok ⟨mv, labelIds, instIds, bbs, o2l⟩

/-- numpy integer fancy indexing `arr[choices]` (IndexError on an
out-of-range index). -/
def gatherIdx {α : Type} (l : List α) : List ℕ → Except PyErr (List α)
  | [] => .ok []
  | i :: rest =>
      match l.get? i with
      | none => .error .indexError
      | some v =>
          match gatherIdx l rest with
          | .error e => .error e
          | .ok vs => .ok (v :: vs)

/-- The subsampling block of `process_scene` (lines 140-145):
`choices = np.random.choice(N, max_num_point, replace=False)` applied to
the three per-vertex arrays when `N > max_num_point`.  The random draw
itself is external; `choices` is its result, constrained in the theorems
by numpy's contract for `replace=False`. -/
def subsampleStep (maxN : ℕ) (choices : List ℕ) (mv : List V6)
    (sem ins : List ℕ) : Except PyErr (List V6 × List ℕ × List ℕ) :=
  if maxN < mv.length then
    match gatherIdx mv choices with
    | .error e => .error e
    | .ok mv' =>
        match gatherIdx sem choices with
        | .error e => .error e
        | .ok sem' =>
            match gatherIdx ins choices with
            | .error e => .error e
            | .ok ins' => .ok (mv', sem', ins')
  else .ok (mv, sem, ins)

/-- numpy boolean-mask row selection `arr[mask]` (lengths already
checked by the caller). -/
def applyMask {α : Type} : List Bool → List α → List α
  | [], _ => []
  | _ :: _, [] => []
  | b :: bs, x :: xs =>
      if b then x :: applyMask bs xs else applyMask bs xs

/-- The four arrays `process_scene` persists for a scene. -/
structure SceneOut where
  vertices : List V6
  semLabels : List ℕ
  insLabels : List ℕ
  bboxes : List BBox
deriving DecidableEq, Repr

/-- `ScannetProcess.process_scene` after the cache check: run `export`,
apply don't-care filtering (`np.in1d` membership mask, with the
boolean-mask length checks numpy performs), filter bounding boxes to the
object classes of interest, subsample, and persist the four arrays
(modelled as the `.ok` payload — on any error nothing is written). -/
def processScene (mesh : List V6) (metaLines : List (List Char))
    (groups : List AggGroup) (segIndices : List ℤ)
    (labelRows : List (String × String)) (donotcare : List ℕ)
    (objClassIds : List ℚ) (maxNumPoint : ℕ) (choices : List ℕ) :
    Except PyErr SceneOut :=
  match exportScene mesh metaLines groups segIndices labelRows with
  | .error e => .error e
  | .ok out =>
      let mask := out.semLabels.map (fun l => !(donotcare.contains l))
      if out.vertices.length = mask.length then
        if out.insLabels.length = mask.length then
          match subsampleStep maxNumPoint choices
              (applyMask mask out.vertices)
              (applyMask mask out.semLabels)
              (applyMask mask out.insLabels) with
          | .error e => .error e
          | .ok (mv', sem', ins') =>
              .ok ⟨mv', sem', ins',
                out.bboxes.filter (fun b => objClassIds.contains b.lab)⟩
        else .error .indexError
      else .error .indexError

/-- C9: the axis-alignment step of `export` replaces each vertex's
position with the homogeneous product (w = 1) of `[x, y, z, 1]` against
the transposed 4×4 matrix — i.e. row `j` of the new position is
`x*M[j][0] + y*M[j][1] + z*M[j][2] + M[j][3]` — while the color columns
of every vertex are unchanged, and no vertex is added or removed. -/
theorem c9_alignment_touches_positions_only (M : Fin 4 → Fin 4 → ℚ)
    (mesh : List V6) (i : ℕ) (v : V6) (hv : mesh.get? i = some v) :
    (applyAlignmentAll M mesh).length = mesh.length ∧
      ∃ v', (applyAlignmentAll M mesh).get? i = some v' ∧
        v'.r = v.r ∧ v'.g = v.g ∧ v'.b = v.b ∧
        v'.x = v.x * M 0 0 + v.y * M 0 1 + v.z * M 0 2 + M 0 3 ∧
        v'.y = v.x * M 1 0 + v.y * M 1 1 + v.z * M 1 2 + M 1 3 ∧
        v'.z = v.x * M 2 0 + v.y * M 2 1 + v.z * M 2 2 + M 2 3 := by
  refine ⟨by simp [applyAlignmentAll], alignRow M v, ?_, rfl, rfl, rfl,
    ?_, ?_, ?_⟩
  · rw [applyAlignmentAll, List.get?_map, hv]
    rfl
  · show dot4 (pts4 v) (fun k => transp M k 0) = _
    have e0 : pts4 v 0 = v.x := rfl
    have e1 : pts4 v 1 = v.y := rfl
    have e2 : pts4 v 2 = v.z := rfl
    have e3 : pts4 v 3 = 1 := rfl
    simp only [dot4, transp, e0, e1, e2, e3]
    ring
  · show dot4 (pts4 v) (fun k => transp M k 1) = _
    have e0 : pts4 v 0 = v.x := rfl
    have e1 : pts4 v 1 = v.y := rfl
    have e2 : pts4 v 2 = v.z := rfl
    have e3 : pts4 v 3 = 1 := rfl
    simp only [dot4, transp, e0, e1, e2, e3]
    ring
  · show dot4 (pts4 v) (fun k => transp M k 2) = _
    have e0 : pts4 v 0 = v.x := rfl
    have e1 : pts4 v 1 = v.y := rfl
    have e2 : pts4 v 2 = v.z := rfl
    have e3 : pts4 v 3 = 1 := rfl
    simp only [dot4, transp, e0, e1, e2, e3]
    ring

/-- A concrete matrix for the C9 witness. -/
def mWit : Fin 4 → Fin 4 → ℚ := fun i j => (i.val : ℚ) * 4 + (j.val : ℚ)

/-- Witness for C9 at a concrete vertex and matrix. -/
theorem c9_witness :
    (([⟨1, 2, 3, 10, 20, 30⟩] : List V6).get? 0 =
        some ⟨1, 2, 3, 10, 20, 30⟩) ∧
      ((applyAlignmentAll mWit [⟨1, 2, 3, 10, 20, 30⟩]).length =
          ([⟨1, 2, 3, 10, 20, 30⟩] : List V6).length ∧
        ∃ v', (applyAlignmentAll mWit [⟨1, 2, 3, 10, 20, 30⟩]).get? 0 =
            some v' ∧
          v'.r = 10 ∧ v'.g = 20 ∧ v'.b = 30 ∧
          v'.x = 1 * mWit 0 0 + 2 * mWit 0 1 + 3 * mWit 0 2 + mWit 0 3 ∧
          v'.y = 1 * mWit 1 0 + 2 * mWit 1 1 + 3 * mWit 1 2 + mWit 1 3 ∧
          v'.z = 1 * mWit 2 0 + 2 * mWit 2 1 + 3 * mWit 2 2 + mWit 2 3) :=
  ⟨rfl, c9_alignment_touches_positions_only mWit [⟨1, 2, 3, 10, 20, 30⟩]
    0 ⟨1, 2, 3, 10, 20, 30⟩ rfl⟩

theorem gatherIdx_ok {α : Type} (l : List α) (c : List ℕ)
    (hb : ∀ i ∈ c, i < l.length) :
    ∃ g, gatherIdx l c = .ok g ∧ g.length = c.length := by
  induction c with
  | nil => exact ⟨[], rfl, rfl⟩
  | cons i rest ih =>
      obtain ⟨g, hg, hlen⟩ := ih (fun j hj => hb j (List.mem_cons_of_mem _ hj))
      have hi : i < l.length := hb i (List.mem_cons_self _ _)
      refine ⟨l.get ⟨i, hi⟩ :: g, ?_, by simp [hlen]⟩
      simp only [gatherIdx, List.get?_eq_get hi, hg]

theorem gatherIdx_length {α : Type} (l : List α) :
    ∀ (c : List ℕ) (g : List α), gatherIdx l c = .ok g →
      g.length = c.length := by
  intro c
  induction c with
  | nil => intro g hg; cases hg; rfl
  | cons i rest ih =>
      intro g hg
      rw [gatherIdx] at hg
      cases h1 : l.get? i with
      | none => rw [h1] at hg; cases hg
      | some a =>
          rw [h1] at hg
          cases h2 : gatherIdx l rest with
          | error e => rw [h2] at hg; cases hg
          | ok vs =>
              rw [h2] at hg
              cases hg
              simp [ih vs h2]

/-- C7: subsampling in `process_scene` never increases the vertex count
and is the identity on all three per-vertex arrays when the vertex count
is at most `max_num_point`; when it does subsample it keeps exactly
`max_num_point` rows chosen by a duplicate-free index list (numpy's
`np.random.choice(N, max_num_point, replace=False)` contract, taken as
the hypotheses on `choices`). -/
theorem c7_subsampling (mv : List V6) (sem ins : List ℕ) (maxN : ℕ)
    (choices : List ℕ) (hsem : sem.length = mv.length)
    (hins : ins.length = mv.length) (hlen : choices.length = maxN)
    (hnd : choices.Nodup) (hbound : ∀ i ∈ choices, i < mv.length) :
    ∃ out, subsampleStep maxN choices mv sem ins = .ok out ∧
      out.1.length ≤ mv.length ∧ out.2.1.length ≤ sem.length ∧
      out.2.2.length ≤ ins.length ∧
      (mv.length ≤ maxN → out = (mv, sem, ins)) ∧
      (maxN < mv.length →
        out.1.length = maxN ∧ out.2.1.length = maxN ∧
          out.2.2.length = maxN ∧ choices.Nodup) := by
  by_cases h : maxN < mv.length
  · obtain ⟨g1, hg1, hl1⟩ := gatherIdx_ok mv choices hbound
    obtain ⟨g2, hg2, hl2⟩ := gatherIdx_ok sem choices
      (fun i hi => by rw [hsem]; exact hbound i hi)
    obtain ⟨g3, hg3, hl3⟩ := gatherIdx_ok ins choices
      (fun i hi => by rw [hins]; exact hbound i hi)
    refine ⟨(g1, g2, g3), ?_, ?_, ?_, ?_, ?_, ?_⟩
    · simp only [subsampleStep, if_pos h, hg1, hg2, hg3]
    · simp only [hl1, hlen]; omega
    · simp only [hl2, hlen, hsem]; omega
    · simp only [hl3, hlen, hins]; omega
    · intro hle; omega
    · intro _
      exact ⟨by rw [hl1, hlen], by rw [hl2, hlen], by rw [hl3, hlen], hnd⟩
  · refine ⟨(mv, sem, ins), ?_, le_refl _, le_refl _, le_refl _,
      fun _ => rfl, fun hlt => absurd hlt h⟩
    simp only [subsampleStep, if_neg h]

/-- Witness for C7: one vertex, `max_num_point = 0`, empty choice list. -/
theorem c7_witness :
    (([3] : List ℕ).length = ([⟨1, 2, 3, 4, 5, 6⟩] : List V6).length ∧
        ([1] : List ℕ).length = ([⟨1, 2, 3, 4, 5, 6⟩] : List V6).length ∧
        ([] : List ℕ).length = 0 ∧ ([] : List ℕ).Nodup) ∧
      ∃ out, subsampleStep 0 [] [⟨1, 2, 3, 4, 5, 6⟩] [3] [1] = .ok out ∧
        out.1.length ≤ 1 ∧ out.2.1.length ≤ 1 ∧ out.2.2.length ≤ 1 ∧
        ((1 : ℕ) ≤ 0 → out = ([⟨1, 2, 3, 4, 5, 6⟩], [3], [1])) ∧
        ((0 : ℕ) < 1 →
          out.1.length = 0 ∧ out.2.1.length = 0 ∧ out.2.2.length = 0 ∧
            ([] : List ℕ).Nodup) :=
  ⟨⟨rfl, rfl, rfl, List.nodup_nil⟩,
    c7_subsampling [⟨1, 2, 3, 4, 5, 6⟩] [3] [1] 0 [] rfl rfl rfl
      List.nodup_nil (by intro i hi; cases hi)⟩

theorem setAll_length (v : ℕ) (verts : List ℕ) :
    ∀ ids : List ℕ, (setAll v ids verts).length = ids.length := by
  induction verts with
  | nil => intro ids; rfl
  | cons i rest ih =>
      intro ids
      show (setAll v (ids.set i v) rest).length = ids.length
      rw [ih, List.length_set]

theorem assignSegs_length (m : List (ℤ × List ℕ)) (v : ℕ) :
    ∀ (segs : List ℤ) (ids ids' : List ℕ),
      assignSegs m v segs ids = .ok ids' → ids'.length = ids.length := by
  intro segs
  induction segs with
  | nil => intro ids ids' h; cases h; rfl
  | cons seg rest ih =>
      intro ids ids' h
      simp only [assignSegs] at h
      cases hf : findVal seg m with
      | none => simp [hf] at h
      | some verts =>
          simp only [hf] at h
          rw [ih _ _ h, setAll_length]

theorem labelLoop_length (lm : LabelMapOut) (m : List (ℤ × List ℕ)) :
    ∀ (entries : List (String × List ℤ)) (ids ids' : List ℕ),
      labelLoop lm m entries ids = .ok ids' → ids'.length = ids.length := by
  intro entries
  induction entries with
  | nil => intro ids ids' h; cases h; rfl
  | cons e rest ih =>
      intro ids ids' h
      obtain ⟨lab, segs⟩ := e
      simp only [labelLoop] at h
      cases hl : lookupLabel lm lab with
      | error e => simp [hl] at h
      | ok lid =>
          simp only [hl] at h
          cases ha : assignSegs m (u32I lid) segs ids with
          | error e => simp [ha] at h
          | ok ids1 =>
              simp only [ha] at h
              rw [ih _ _ h, assignSegs_length m _ _ _ _ ha]

theorem instSegs_length (m : List (ℤ × List ℕ)) (lids : List ℕ) (oid : ℤ) :
    ∀ (segs : List ℤ) (ids : List ℕ) (o2l : List (ℤ × ℕ))
      (out : List ℕ × List (ℤ × ℕ)),
      instSegs m lids oid segs ids o2l = .ok out →
        out.1.length = ids.length := by
  intro segs
  induction segs with
  | nil => intro ids o2l out h; cases h; rfl
  | cons seg rest ih =>
      intro ids o2l out h
      simp only [instSegs] at h
      cases hf : findVal seg m with
      | none => simp [hf] at h
      | some verts =>
          simp only [hf] at h
          cases ho : findVal oid o2l with
          | some x =>
              simp only [ho] at h
              rw [ih _ _ _ h, setAll_length]
          | none =>
              simp only [ho] at h
              cases verts with
              | nil => simp at h
              | cons v0 vrest =>
                  rw [ih _ _ _ h, setAll_length]

theorem instLoop_length (m : List (ℤ × List ℕ)) (lids : List ℕ) :
    ∀ (entries : List (ℤ × List ℤ)) (ids : List ℕ) (o2l : List (ℤ × ℕ))
      (out : List ℕ × List (ℤ × ℕ)),
      instLoop m lids entries ids o2l = .ok out →
        out.1.length = ids.length := by
  intro entries
  induction entries with
  | nil => intro ids o2l out h; cases h; rfl
  | cons e rest ih =>
      intro ids o2l out h
      obtain ⟨oid, segs⟩ := e
      simp only [instLoop] at h
      cases hs : instSegs m lids oid segs ids o2l with
      | error e => simp [hs] at h
      | ok p =>
          obtain ⟨ids1, o2l1⟩ := p
          simp only [hs] at h
          rw [ih _ _ _ h]
          exact instSegs_length m lids oid segs ids o2l (ids1, o2l1) hs

theorem exportScene_inv (mesh : List V6) (metaLines : List (List Char))
    (groups : List AggGroup) (segIndices : List ℤ)
    (labelRows : List (String × String)) (out : ExportOut)
    (hok : exportScene mesh metaLines groups segIndices labelRows =
      .ok out) :
    ∃ lm M labelIds instIds o2l bbs,
      readLabelMapping labelRows = .ok lm ∧
      loadAxisAlign metaLines = .ok M ∧
      labelLoop lm (readSegmentation segIndices).1
        (readAggregation groups).2
        (List.replicate (readSegmentation segIndices).2 0) =
          .ok labelIds ∧
      instLoop (readSegmentation segIndices).1 labelIds
        (readAggregation groups).1
        (List.replicate (readSegmentation segIndices).2 0) [] =
          .ok (instIds, o2l) ∧
      bboxLoop (applyAlignmentAll M mesh) instIds o2l
        (readAggregation groups).1
        (List.replicate (readAggregation groups).1.length zeroBB) =
          .ok bbs ∧
      out = ⟨applyAlignmentAll M mesh, labelIds, instIds, bbs, o2l⟩ := by
  simp only [exportScene] at hok
  cases h1 : readLabelMapping labelRows with
  | error e => simp [h1] at hok
  | ok lm =>
      simp only [h1] at hok
      cases h2 : loadAxisAlign metaLines with
      | error e => simp [h2] at hok
      | ok M =>
          simp only [h2] at hok
          cases h3 : labelLoop lm (readSegmentation segIndices).1
              (readAggregation groups).2
              (List.replicate (readSegmentation segIndices).2 0) with
          | error e => simp [h3] at hok
          | ok labelIds =>
              simp only [h3] at hok
              cases h4 : instLoop (readSegmentation segIndices).1 labelIds
                  (readAggregation groups).1
                  (List.replicate (readSegmentation segIndices).2 0) [] with
              | error e => simp [h4] at hok
              | ok p =>
                  obtain ⟨instIds, o2l⟩ := p
                  simp only [h4] at hok
                  cases h5 : bboxLoop (applyAlignmentAll M mesh) instIds o2l
                      (readAggregation groups).1
                      (List.replicate (readAggregation groups).1.length
                        zeroBB) with
                  | error e => simp [h5] at hok
                  | ok bbs =>
                      simp only [h5] at hok
                      exact ⟨lm, M, labelIds, instIds, o2l, bbs, rfl, rfl,
                        h3, h4, h5, (Except.ok.inj hok).symm⟩

theorem applyMask_length_eq {α β : Type} :
    ∀ (m : List Bool) (l1 : List α) (l2 : List β),
      l1.length = l2.length →
      (applyMask m l1).length = (applyMask m l2).length := by
  intro m
  induction m with
  | nil => intro l1 l2 _; rfl
  | cons b bs ih =>
      intro l1 l2 h
      cases l1 with
      | nil =>
          cases l2 with
          | nil => rfl
          | cons y ys => simp at h
      | cons x xs =>
          cases l2 with
          | nil => simp at h
          | cons y ys =>
              simp only [List.length_cons] at h
              have h' : xs.length = ys.length := by omega
              cases b with
              | false => simpa [applyMask] using ih xs ys h'
              | true => simpa [applyMask] using ih xs ys h'

theorem subsampleStep_eqlen (maxN : ℕ) (choices : List ℕ) (mv : List V6)
    (sem ins : List ℕ) (a : List V6) (b c : List ℕ)
    (h : subsampleStep maxN choices mv sem ins = .ok (a, b, c))
    (h1 : sem.length = mv.length) (h2 : ins.length = mv.length) :
    b.length = a.length ∧ c.length = a.length := by
  simp only [subsampleStep] at h
  by_cases hc : maxN < mv.length
  · simp only [if_pos hc] at h
    cases hg1 : gatherIdx mv choices with
    | error e => simp [hg1] at h
    | ok g1 =>
        simp only [hg1] at h
        cases hg2 : gatherIdx sem choices with
        | error e => simp [hg2] at h
        | ok g2 =>
            simp only [hg2] at h
            cases hg3 : gatherIdx ins choices with
            | error e => simp [hg3] at h
            | ok g3 =>
                simp only [hg3] at h
                obtain ⟨rfl, rfl, rfl⟩ :
                    a = g1 ∧ b = g2 ∧ c = g3 := by
                  have := Except.ok.inj h
                  exact ⟨congrArg Prod.fst this.symm, by
                    have h2' := congrArg Prod.snd this.symm
                    exact ⟨congrArg Prod.fst h2', congrArg Prod.snd h2'⟩⟩
                rw [gatherIdx_length mv choices _ hg1,
                  gatherIdx_length sem choices _ hg2,
                  gatherIdx_length ins choices _ hg3]
                exact ⟨rfl, rfl⟩
  · simp only [if_neg hc] at h
    have := Except.ok.inj h
    obtain ⟨rfl, rfl, rfl⟩ : a = mv ∧ b = sem ∧ c = ins := by
      exact ⟨congrArg Prod.fst this.symm, by
        have h2' := congrArg Prod.snd this.symm
        exact ⟨congrArg Prod.fst h2', congrArg Prod.snd h2'⟩⟩
    exact ⟨h1, h2⟩

/-- C1: for every scene, the three per-vertex arrays are length-aligned
— `len(semantic_labels) = len(instance_labels) = len(vertices)` — both
in the raw output of `export` and after don't-care filtering and
subsampling in `process_scene`.  The well-formedness hypothesis is the
input contract of §6: the mesh and the segmentation file are
index-aligned (one `segIndices` entry per mesh vertex). -/
theorem c1_parallel_array_lengths (mesh : List V6)
    (metaLines : List (List Char)) (groups : List AggGroup)
    (segIndices : List ℤ) (labelRows : List (String × String))
    (donotcare : List ℕ) (objClassIds : List ℚ) (maxNumPoint : ℕ)
    (choices : List ℕ) (hwf : mesh.length = segIndices.length) :
    (∀ out, exportScene mesh metaLines groups segIndices labelRows =
        .ok out →
      out.semLabels.length = out.vertices.length ∧
        out.insLabels.length = out.vertices.length) ∧
    (∀ s, processScene mesh metaLines groups segIndices labelRows
        donotcare objClassIds maxNumPoint choices = .ok s →
      s.semLabels.length = s.vertices.length ∧
        s.insLabels.length = s.vertices.length) := by
  have part1 : ∀ out, exportScene mesh metaLines groups segIndices
      labelRows = .ok out →
      out.semLabels.length = out.vertices.length ∧
        out.insLabels.length = out.vertices.length := by
    intro out hok
    obtain ⟨lm, M, lids, iids, o2l, bbs, h1, h2, h3, h4, h5, rfl⟩ :=
      exportScene_inv mesh metaLines groups segIndices labelRows out hok
    have e3 : lids.length = segIndices.length := by
      have := labelLoop_length lm (readSegmentation segIndices).1
        (readAggregation groups).2 _ _ h3
      simpa [readSegmentation] using this
    have e4 : iids.length = segIndices.length := by
      have := instLoop_length (readSegmentation segIndices).1 lids
        (readAggregation groups).1 _ _ _ h4
      simpa [readSegmentation] using this
    have ev : (applyAlignmentAll M mesh).length = segIndices.length := by
      simp [applyAlignmentAll, hwf]
    exact ⟨by show lids.length = _; rw [e3, ev], by
      show iids.length = _; rw [e4, ev]⟩
  refine ⟨part1, ?_⟩
  intro s hs
  simp only [processScene] at hs
  cases hex : exportScene mesh metaLines groups segIndices labelRows with
  | error e => simp [hex] at hs
  | ok out =>
      simp only [hex] at hs
      obtain ⟨hsem, hins⟩ := part1 out hex
      have hmlen : (out.semLabels.map
          (fun l => !(donotcare.contains l))).length =
            out.semLabels.length := by simp
      have hv : out.vertices.length = (out.semLabels.map
          (fun l => !(donotcare.contains l))).length := by
        rw [hmlen, hsem]
      have hi : out.insLabels.length = (out.semLabels.map
          (fun l => !(donotcare.contains l))).length := by
        rw [hmlen, hins, hsem]
      rw [if_pos hv, if_pos hi] at hs
      set mask := out.semLabels.map (fun l => !(donotcare.contains l))
        with hmask
      cases hss : subsampleStep maxNumPoint choices
          (applyMask mask out.vertices) (applyMask mask out.semLabels)
          (applyMask mask out.insLabels) with
      | error e => simp [hss] at hs
      | ok p =>
          obtain ⟨mv', sem', ins'⟩ := p
          simp only [hss] at hs
          have hms : (applyMask mask out.semLabels).length =
              (applyMask mask out.vertices).length :=
            applyMask_length_eq mask out.semLabels out.vertices hsem
          have hmi : (applyMask mask out.insLabels).length =
              (applyMask mask out.vertices).length :=
            applyMask_length_eq mask out.insLabels out.vertices hins
          obtain ⟨hb, hc⟩ := subsampleStep_eqlen maxNumPoint choices
            (applyMask mask out.vertices) (applyMask mask out.semLabels)
            (applyMask mask out.insLabels) mv' sem' ins' hss hms hmi
          have hsval := (Except.ok.inj hs).symm
          subst hsval
          exact ⟨hb, hc⟩

/-- Concrete witness scene: two vertices in one segment (id 7), one
aggregation group (`objectId 0`, label "chair", segment 7), identity
alignment matrix, label map sending "chair" to class 3. -/
def mesh0 : List V6 := [⟨1, 2, 3, 10, 20, 30⟩, ⟨4, 5, 6, 40, 50, 60⟩]

/-- The metadata line of the witness scene. -/
def metaLine0 : List Char :=
  "axisAlignment = 1 0 0 0 0 1 0 0 0 0 1 0 0 0 0 1".toList

/-- The aggregation groups of the witness scene. -/
def groups0 : List AggGroup := [⟨0, "chair", [7]⟩]

/-- The segmentation array of the witness scene. -/
def segIdx0 : List ℤ := [7, 7]

/-- The label-mapping rows of the witness scene. -/
def rows0 : List (String × String) := [("chair", "3")]

/-- `DONOTCARE_IDS` of `ScannetProcess.__init__`: empty. -/
def donotcareIds : List ℕ := []

/-- `OBJ_CLASS_IDS` of `ScannetProcess.__init__`. -/
def objClassIds0 : List ℚ :=
  [3, 4, 5, 6, 7, 8, 9, 10, 11, 12, 14, 16, 24, 28, 33, 34, 36, 39]

/-- The export result of the witness scene. -/
def out0 : ExportOut :=
  ⟨mesh0, [3, 3], [1, 1], [⟨5/2, 7/2, 9/2, 3, 3, 3, 3⟩], [(1, 3)]⟩

/-- The processed (filtered) result of the witness scene. -/
def scene0 : SceneOut :=
  ⟨mesh0, [3, 3], [1, 1], [⟨5/2, 7/2, 9/2, 3, 3, 3, 3⟩]⟩

/-- Witness for C1 on the concrete scene, both for the raw `export`
output and for the `process_scene` output. -/
theorem c1_witness :
    mesh0.length = segIdx0.length ∧
      exportScene mesh0 [metaLine0] groups0 segIdx0 rows0 = .ok out0 ∧
      (out0.semLabels.length = out0.vertices.length ∧
        out0.insLabels.length = out0.vertices.length) ∧
      processScene mesh0 [metaLine0] groups0 segIdx0 rows0 donotcareIds
        objClassIds0 100000 [] = .ok scene0 ∧
      (scene0.semLabels.length = scene0.vertices.length ∧
        scene0.insLabels.length = scene0.vertices.length) :=
  ⟨rfl, by with_unfolding_all rfl,
    (c1_parallel_array_lengths mesh0 [metaLine0] groups0 segIdx0 rows0
        donotcareIds objClassIds0 100000 [] rfl).1 out0
      (by with_unfolding_all rfl),
    by with_unfolding_all rfl,
    (c1_parallel_array_lengths mesh0 [metaLine0] groups0 segIdx0 rows0
        donotcareIds objClassIds0 100000 [] rfl).2 scene0
      (by with_unfolding_all rfl)⟩

/-- C3: if no metadata line contains the `axisAlignment` key, the scene
export fails (FormatError in the spec's taxonomy) and `process_scene`
produces no output arrays for the scene — the failure happens before any
of the four files is written.  The label-mapping-read hypothesis only
reflects that the shared label table itself is readable (it is loaded
before the metadata in `export`). -/
theorem c3_missing_axis_alignment_fails (mesh : List V6)
    (metaLines : List (List Char)) (groups : List AggGroup)
    (segIndices : List ℤ) (labelRows : List (String × String))
    (donotcare : List ℕ) (objClassIds : List ℚ) (maxNumPoint : ℕ)
    (choices : List ℕ) (lm : LabelMapOut)
    (hnokey : ∀ l ∈ metaLines, hasAxisKey l = false)
    (hlm : readLabelMapping labelRows = .ok lm) :
    exportScene mesh metaLines groups segIndices labelRows =
        .error .formatError ∧
      processScene mesh metaLines groups segIndices labelRows donotcare
        objClassIds maxNumPoint choices = .error .formatError := by
  have hfind : metaLines.find? hasAxisKey = none := by
    rw [List.find?_eq_none]
    intro l hl
    simp [hnokey l hl]
  have hax : loadAxisAlign metaLines = .error .formatError := by
    simp only [loadAxisAlign, hfind]
  have hexp : exportScene mesh metaLines groups segIndices labelRows =
      .error .formatError := by
    simp only [exportScene, hlm, hax]
  exact ⟨hexp, by simp only [processScene, hexp]⟩

/-- Witness for C3: a metadata file whose only line has no
`axisAlignment` key. -/
theorem c3_witness :
    (∀ l ∈ ["sceneid 42".toList], hasAxisKey l = false) ∧
      readLabelMapping rows0 = .ok (.strKeyed [("chair", 3)]) ∧
      exportScene mesh0 ["sceneid 42".toList] groups0 segIdx0 rows0 =
          .error .formatError ∧
      processScene mesh0 ["sceneid 42".toList] groups0 segIdx0 rows0
        donotcareIds objClassIds0 100000 [] = .error .formatError :=
  ⟨by decide, by decide,
    c3_missing_axis_alignment_fails mesh0 ["sceneid 42".toList] groups0
      segIdx0 rows0 donotcareIds objClassIds0 100000 []
      (.strKeyed [("chair", 3)]) (by decide) (by decide)⟩

theorem mem_setAll (v : ℕ) (verts : List ℕ) :
    ∀ (ids : List ℕ) (x : ℕ), x ∈ setAll v ids verts → x ∈ ids ∨ x = v := by
  induction verts with
  | nil => intro ids x h; exact Or.inl h
  | cons i rest ih =>
      intro ids x h
      rcases ih (ids.set i v) x h with h' | h'
      · rcases List.mem_or_eq_of_mem_set h' with h'' | h''
        · exact Or.inl h''
        · exact Or.inr h''
      · exact Or.inr h'

theorem instSegs_values (m : List (ℤ × List ℕ)) (lids : List ℕ) (oid : ℤ) :
    ∀ (segs : List ℤ) (ids : List ℕ) (o2l : List (ℤ × ℕ))
      (out : List ℕ × List (ℤ × ℕ)),
      instSegs m lids oid segs ids o2l = .ok out →
      ∀ x ∈ out.1, x ∈ ids ∨ x = u32I oid := by
  intro segs
  induction segs with
  | nil => intro ids o2l out h x hx; cases h; exact Or.inl hx
  | cons seg rest ih =>
      intro ids o2l out h x hx
      simp only [instSegs] at h
      cases hf : findVal seg m with
      | none => simp [hf] at h
      | some verts =>
          simp only [hf] at h
          cases ho : findVal oid o2l with
          | some y =>
              simp only [ho] at h
              rcases ih _ _ _ h x hx with h' | h'
              · exact mem_setAll _ _ _ _ h'
              · exact Or.inr h'
          | none =>
              simp only [ho] at h
              cases verts with
              | nil => simp at h
              | cons v0 vrest =>
                  rcases ih _ _ _ h x hx with h' | h'
                  · exact mem_setAll _ _ _ _ h'
                  · exact Or.inr h'

theorem instLoop_values (m : List (ℤ × List ℕ)) (lids : List ℕ) :
    ∀ (entries : List (ℤ × List ℤ)) (ids : List ℕ) (o2l : List (ℤ × ℕ))
      (out : List ℕ × List (ℤ × ℕ)),
      instLoop m lids entries ids o2l = .ok out →
      ∀ x ∈ out.1, x ∈ ids ∨ ∃ e ∈ entries, x = u32I e.1 := by
  intro entries
  induction entries with
  | nil => intro ids o2l out h x hx; cases h; exact Or.inl hx
  | cons e rest ih =>
      intro ids o2l out h x hx
      obtain ⟨oid, segs⟩ := e
      simp only [instLoop] at h
      cases hs : instSegs m lids oid segs ids o2l with
      | error e => simp [hs] at h
      | ok p =>
          simp only [hs] at h
          rcases ih _ _ _ h x hx with h' | ⟨e', he', rfl⟩
          · rcases instSegs_values m lids oid segs ids o2l p hs x h' with
              h'' | h''
            · exact Or.inl h''
            · exact Or.inr ⟨(oid, segs), List.mem_cons_self _ _, h''⟩
          · exact Or.inr ⟨e', List.mem_cons_of_mem _ he', rfl⟩

theorem aggFold_keys (groups : List AggGroup) :
    ∀ (st : AggSt) (e : ℤ × ℕ), e ∈ (groups.foldl aggStep st).objMap →
      e ∈ st.objMap ∨ ∃ g ∈ groups, e.1 = g.objectId + 1 := by
  induction groups with
  | nil => intro st e h; exact Or.inl h
  | cons g rest ih =>
      intro st e h
      have hstep : (g :: rest).foldl aggStep st =
          rest.foldl aggStep (aggStep st g) := rfl
      rw [hstep] at h
      rcases ih (aggStep st g) e h with h' | ⟨g', hg', he⟩
      · have hmem : e ∈ dictInsert (g.objectId + 1) st.store.length
            st.objMap := by
          unfold aggStep at h'
          cases hl : findVal g.label st.labMap <;> simp only [hl] at h' <;>
            exact h'
        rcases mem_dictInsert hmem with rfl | h''
        · exact Or.inr ⟨g, List.mem_cons_self _ _, rfl⟩
        · exact Or.inl h''
      · exact Or.inr ⟨g', List.mem_cons_of_mem _ hg', he⟩

theorem readAggregation_keys (groups : List AggGroup) :
    ∀ e ∈ (readAggregation groups).1, ∃ g ∈ groups,
      e.1 = g.objectId + 1 := by
  intro e he
  simp only [readAggregation, resolveRefs] at he
  rcases List.mem_map.mp he with ⟨p, hp, rfl⟩
  rcases aggFold_keys groups ⟨[], [], []⟩ p hp with h | ⟨g, hg, hkey⟩
  · simp at h
  · exact ⟨g, hg, hkey⟩

theorem dictInsert_length_le {α β : Type} [DecidableEq α] (k : α) (v : β) :
    ∀ m : List (α × β), (dictInsert k v m).length ≤ m.length + 1 := by
  intro m
  induction m with
  | nil => simp [dictInsert]
  | cons p rest ih =>
      by_cases hp : p.1 = k
      · simp [dictInsert, hp]
      · simp only [dictInsert, if_neg hp, List.length_cons]
        omega

theorem aggFold_objMap_length (groups : List AggGroup) :
    ∀ st : AggSt, (groups.foldl aggStep st).objMap.length ≤
      st.objMap.length + groups.length := by
  induction groups with
  | nil => intro st; simp
  | cons g rest ih =>
      intro st
      have hstep : (g :: rest).foldl aggStep st =
          rest.foldl aggStep (aggStep st g) := rfl
      rw [hstep]
      have h1 := ih (aggStep st g)
      have h2 : (aggStep st g).objMap.length ≤ st.objMap.length + 1 := by
        unfold aggStep
        cases hl : findVal g.label st.labMap <;> simp only [hl] <;>
          exact dictInsert_length_le _ _ _
      simp only [List.length_cons]
      omega

theorem readAggregation_objMap_length (groups : List AggGroup) :
    (readAggregation groups).1.length ≤ groups.length := by
  simp only [readAggregation, resolveRefs, List.length_map]
  have h := aggFold_objMap_length groups ⟨[], [], []⟩
  simpa using h

theorem setRow_length (bbs : List BBox) (idx : ℤ) (row : BBox)
    (bbs' : List BBox) (h : setRow bbs idx row = .ok bbs') :
    bbs'.length = bbs.length := by
  simp only [setRow] at h
  by_cases h0 : 0 ≤ idx
  · simp only [if_pos h0] at h
    by_cases h1 : idx.toNat < bbs.length
    · simp only [if_pos h1] at h
      rw [← Except.ok.inj h, List.length_set]
    · simp [h1] at h
  · simp only [if_neg h0] at h
    by_cases h1 : (-idx).toNat ≤ bbs.length
    · simp only [if_pos h1] at h
      rw [← Except.ok.inj h, List.length_set]
    · simp [h1] at h

theorem setRow_bound_of_nonneg (bbs : List BBox) (idx : ℤ) (row : BBox)
    (bbs' : List BBox) (h : setRow bbs idx row = .ok bbs')
    (h0 : 0 ≤ idx) :
    idx.toNat < bbs.length ∧ bbs' = bbs.set idx.toNat row := by
  simp only [setRow, if_pos h0] at h
  by_cases h1 : idx.toNat < bbs.length
  · simp only [if_pos h1] at h
    exact ⟨h1, (Except.ok.inj h).symm⟩
  · simp [h1] at h

theorem aggFold_keys_nodup (groups : List AggGroup) :
    ∀ st : AggSt, (st.objMap.map Prod.fst).Nodup →
      ((groups.foldl aggStep st).objMap.map Prod.fst).Nodup := by
  induction groups with
  | nil => intro st h; exact h
  | cons g rest ih =>
      intro st h
      have hstep : (g :: rest).foldl aggStep st =
          rest.foldl aggStep (aggStep st g) := rfl
      rw [hstep]
      apply ih
      unfold aggStep
      cases hl : findVal g.label st.labMap <;> simp only [hl] <;>
        exact keys_dictInsert_nodup _ _ h

theorem readAggregation_keys_nodup (groups : List AggGroup) :
    (((readAggregation groups).1).map Prod.fst).Nodup := by
  simp only [readAggregation, resolveRefs]
  rw [List.map_map]
  have hco : (Prod.fst ∘ fun p : ℤ × ℕ =>
      (p.1, (groups.foldl aggStep ⟨[], [], []⟩).store.getD p.2 [])) =
        Prod.fst := rfl
  rw [hco]
  exact aggFold_keys_nodup groups ⟨[], [], []⟩ (by simp)

theorem bboxLoop_spec (mv : List V6) (ids : List ℕ)
    (o2l : List (ℤ × ℕ)) :
    ∀ (entries : List (ℤ × List ℤ)) (bbs0 bbs : List BBox),
      bboxLoop mv ids o2l entries bbs0 = .ok bbs →
      (entries.map Prod.fst).Nodup →
      (∀ e ∈ entries, 1 ≤ e.1) →
      bbs.length = bbs0.length ∧
        (entries ≠ [] → mv.length = ids.length) ∧
        (∀ j, (∀ e ∈ entries, (e.1 - 1).toNat ≠ j) →
          bbs.get? j = bbs0.get? j) ∧
        (∀ e ∈ entries, ∀ p ps, memberPosList mv ids e.1 = p :: ps →
          ∃ lid, findVal e.1 o2l = some lid ∧
            (e.1 - 1).toNat < bbs0.length ∧
            bbs.get? ((e.1 - 1).toNat) = some (mkBBox p ps lid)) := by
  intro entries
  induction entries with
  | nil =>
      intro bbs0 bbs h _ _
      cases h
      exact ⟨rfl, fun hne => absurd rfl hne, fun j _ => rfl,
        fun e he => absurd he (List.not_mem_nil e)⟩
  | cons e0 rest ih =>
      intro bbs0 bbs h hnd hpos
      obtain ⟨oid, segs⟩ := e0
      have h1 : (1 : ℤ) ≤ oid := hpos (oid, segs) (List.mem_cons_self _ _)
      rw [List.map_cons, List.nodup_cons] at hnd
      obtain ⟨hknot, hndrest⟩ := hnd
      have hposr : ∀ e ∈ rest, 1 ≤ e.1 :=
        fun e he => hpos e (List.mem_cons_of_mem _ he)
      simp only [bboxLoop] at h
      cases hfo : findVal oid o2l with
      | none => simp [hfo] at h
      | some lid =>
          simp only [hfo] at h
          by_cases hml : mv.length = ids.length
          · rw [if_pos hml] at h
            cases hmem : memberPosList mv ids oid with
            | nil =>
                simp only [hmem] at h
                obtain ⟨hlen, _, hframe, hrows⟩ := ih bbs0 bbs h hndrest hposr
                refine ⟨hlen, fun _ => hml, ?_, ?_⟩
                · intro j hj
                  exact hframe j
                    (fun e he => hj e (List.mem_cons_of_mem _ he))
                · intro e he p ps heq
                  rcases List.mem_cons.mp he with rfl | he'
                  · rw [hmem] at heq; cases heq
                  · exact hrows e he' p ps heq
            | cons p ps =>
                simp only [hmem] at h
                cases hsr : setRow bbs0 (oid - 1) (mkBBox p ps lid) with
                | error er => simp [hsr] at h
                | ok bbs1 =>
                    simp only [hsr] at h
                    have h0 : (0 : ℤ) ≤ oid - 1 := by omega
                    obtain ⟨hidx, hval⟩ :=
                      setRow_bound_of_nonneg bbs0 _ _ _ hsr h0
                    obtain ⟨hlen1, _, hframe1, hrows1⟩ :=
                      ih bbs1 bbs h hndrest hposr
                    have hlen10 : bbs1.length = bbs0.length := by
                      rw [hval, List.length_set]
                    have hinj : ∀ e ∈ rest,
                        ((e.1 : ℤ) - 1).toNat ≠ (oid - 1).toNat := by
                      intro e he hc
                      have he1 := hposr e he
                      have heq : e.1 = oid := by omega
                      have hmm : e.1 ∈ rest.map Prod.fst :=
                        List.mem_map_of_mem Prod.fst he
                      rw [heq] at hmm
                      exact hknot hmm
                    refine ⟨by rw [hlen1, hlen10], fun _ => hml, ?_, ?_⟩
                    · intro j hj
                      have hj0 : ((oid : ℤ) - 1).toNat ≠ j :=
                        hj (oid, segs) (List.mem_cons_self _ _)
                      have hstep1 : bbs.get? j = bbs1.get? j :=
                        hframe1 j
                          (fun e he => hj e (List.mem_cons_of_mem _ he))
                      rw [hstep1, hval]
                      exact List.get?_set_ne _ _ hj0
                    · intro e he p' ps' heq
                      rcases List.mem_cons.mp he with rfl | he'
                      · have hpp : p :: ps = p' :: ps' := by
                          rw [← hmem, heq]
                        obtain ⟨rfl, rfl⟩ : p = p' ∧ ps = ps' := by
                          injection hpp with hh1 hh2
                          exact ⟨hh1, hh2⟩
                        refine ⟨lid, hfo, hidx, ?_⟩
                        have hstep1 : bbs.get? ((oid - 1).toNat) =
                            bbs1.get? ((oid - 1).toNat) :=
                          hframe1 _ hinj
                        rw [hstep1, hval]
                        exact List.get?_set_eq_of_lt _ hidx
                      · obtain ⟨lid', hfo', hb', hrow'⟩ :=
                          hrows1 e he' p' ps' heq
                        exact ⟨lid', hfo', by omega, hrow'⟩
          · rw [if_neg hml] at h
            simp at h

/-- C6: in every successful `export`, every value of the instance-id
array is in `{0} ∪ {1..K}`, `K` = number of object groups in the
aggregation file.  Well-formedness hypotheses from the input contract:
source object ids are 0-indexed (nonnegative) and small enough not to
wrap in the uint32 store. -/
theorem c6_instance_id_range (mesh : List V6)
    (metaLines : List (List Char)) (groups : List AggGroup)
    (segIndices : List ℤ) (labelRows : List (String × String))
    (out : ExportOut)
    (hoid : ∀ g ∈ groups, 0 ≤ g.objectId ∧ g.objectId + 1 < 4294967296)
    (hok : exportScene mesh metaLines groups segIndices labelRows =
      .ok out) :
    ∀ v ∈ out.insLabels, v = 0 ∨ (1 ≤ v ∧ v ≤ groups.length) := by
  obtain ⟨lm, M, lids, iids, o2l, bbs, h1, h2, h3, h4, h5, rfl⟩ :=
    exportScene_inv mesh metaLines groups segIndices labelRows out hok
  intro v hv
  have hv' : v ∈ iids := hv
  rcases instLoop_values _ _ _ _ _ _ h4 v hv' with hin | ⟨e, he, rfl⟩
  · left
    exact List.eq_of_mem_replicate hin
  · right
    obtain ⟨g, hg, hkey⟩ := readAggregation_keys groups e he
    obtain ⟨hge, hlt⟩ := hoid g hg
    have hk1 : (1 : ℤ) ≤ e.1 := by omega
    have hk32 : e.1 < 4294967296 := by omega
    have hu : (u32I e.1 : ℤ) = e.1 := by
      unfold u32I
      rw [Int.emod_eq_of_lt (by omega) (by omega)]
      omega
    refine ⟨by omega, ?_⟩
    have hnd := readAggregation_keys_nodup groups
    have hpos : ∀ e' ∈ (readAggregation groups).1, 1 ≤ e'.1 := by
      intro e' he'
      obtain ⟨g', hg', hkey'⟩ := readAggregation_keys groups e' he'
      have := (hoid g' hg').1
      omega
    obtain ⟨hlen, hml, hframe, hrows⟩ :=
      bboxLoop_spec _ _ _ _ _ _ h5 hnd hpos
    have hmv : (applyAlignmentAll M mesh).length = iids.length :=
      hml (by
        intro hcon
        rw [hcon] at he
        exact List.not_mem_nil e he)
    obtain ⟨i, hi⟩ := List.mem_iff_get?.mp hv'
    obtain ⟨hilt, _⟩ := List.get?_eq_some.mp hi
    obtain ⟨w, hw⟩ : ∃ w, (applyAlignmentAll M mesh).get? i = some w := by
      have hlt' : i < (applyAlignmentAll M mesh).length := by
        rw [hmv]; exact hilt
      exact ⟨_, List.get?_eq_get hlt'⟩
    have hzip : ((applyAlignmentAll M mesh).zip iids).get? i =
        some (w, u32I e.1) := by
      rw [List.get?_zip_eq_some]
      exact ⟨hw, hi⟩
    have hmemzip : (w, u32I e.1) ∈ (applyAlignmentAll M mesh).zip iids :=
      List.get?_mem hzip
    have hfil : (w, u32I e.1) ∈ ((applyAlignmentAll M mesh).zip
        iids).filter (fun p => ((p.2 : ℤ) == e.1)) := by
      rw [List.mem_filter]
      refine ⟨hmemzip, ?_⟩
      show ((u32I e.1 : ℤ) == e.1) = true
      rw [beq_iff_eq]
      exact hu
    have hmempos : (w.x, w.y, w.z) ∈
        memberPosList (applyAlignmentAll M mesh) iids e.1 := by
      unfold memberPosList
      exact List.mem_map_of_mem _ hfil
    cases hmeml : memberPosList (applyAlignmentAll M mesh) iids e.1 with
    | nil =>
        rw [hmeml] at hmempos
        exact absurd hmempos (List.not_mem_nil _)
    | cons p ps =>
        obtain ⟨lid, _, hbound, _⟩ := hrows e he p ps hmeml
        rw [List.length_replicate] at hbound
        have hobj := readAggregation_objMap_length groups
        omega

/-- Witness for C6 on the concrete scene (instance ids `[1, 1]`,
one group). -/
theorem c6_witness :
    (∀ g ∈ groups0, 0 ≤ g.objectId ∧ g.objectId + 1 < 4294967296) ∧
      exportScene mesh0 [metaLine0] groups0 segIdx0 rows0 = .ok out0 ∧
      ∀ v ∈ out0.insLabels, v = 0 ∨ (1 ≤ v ∧ v ≤ groups0.length) :=
  ⟨by decide, by with_unfolding_all rfl,
    c6_instance_id_range mesh0 [metaLine0] groups0 segIdx0 rows0 out0
      (by decide) (by with_unfolding_all rfl)⟩

theorem foldl_min_le_init (l : List ℚ) :
    ∀ a : ℚ, l.foldl min a ≤ a := by
  induction l with
  | nil => intro a; exact le_refl a
  | cons x xs ih =>
      intro a
      show xs.foldl min (min a x) ≤ a
      exact le_trans (ih (min a x)) (min_le_left a x)

theorem foldl_min_le_mem (l : List ℚ) :
    ∀ (a x : ℚ), x ∈ l → l.foldl min a ≤ x := by
  induction l with
  | nil => intro a x h; cases h
  | cons y ys ih =>
      intro a x h
      rcases List.mem_cons.mp h with rfl | h'
      · show ys.foldl min (min a x) ≤ x
        exact le_trans (foldl_min_le_init ys (min a x)) (min_le_right a x)
      · exact ih (min a y) x h'

theorem le_foldl_max_init (l : List ℚ) :
    ∀ a : ℚ, a ≤ l.foldl max a := by
  induction l with
  | nil => intro a; exact le_refl a
  | cons x xs ih =>
      intro a
      show a ≤ xs.foldl max (max a x)
      exact le_trans (le_max_left a x) (ih (max a x))

theorem le_foldl_max_mem (l : List ℚ) :
    ∀ (a x : ℚ), x ∈ l → x ≤ l.foldl max a := by
  induction l with
  | nil => intro a x h; cases h
  | cons y ys ih =>
      intro a x h
      rcases List.mem_cons.mp h with rfl | h'
      · show x ≤ ys.foldl max (max a x)
        exact le_trans (le_max_right a x) (le_foldl_max_init ys (max a x))
      · exact ih (max a y) x h'

theorem axis_bounds (f : ℚ × ℚ × ℚ → ℚ) (p : ℚ × ℚ × ℚ)
    (ps : List (ℚ × ℚ × ℚ)) (q : ℚ × ℚ × ℚ) (hq : q ∈ p :: ps) :
    (ps.map f).foldl min (f p) ≤ f q ∧
      f q ≤ (ps.map f).foldl max (f p) := by
  rcases List.mem_cons.mp hq with rfl | hq'
  · exact ⟨foldl_min_le_init _ _, le_foldl_max_init _ _⟩
  · have hmem : f q ∈ ps.map f := List.mem_map_of_mem f hq'
    exact ⟨foldl_min_le_mem _ _ _ hmem, le_foldl_max_mem _ _ _ hmem⟩

theorem mkBBox_bounds (p : ℚ × ℚ × ℚ) (ps : List (ℚ × ℚ × ℚ)) (lid : ℕ) :
    0 ≤ (mkBBox p ps lid).dx ∧ 0 ≤ (mkBBox p ps lid).dy ∧
      0 ≤ (mkBBox p ps lid).dz ∧
      ∀ q ∈ p :: ps,
        (mkBBox p ps lid).cx - (mkBBox p ps lid).dx / 2 ≤ q.1 ∧
        q.1 ≤ (mkBBox p ps lid).cx + (mkBBox p ps lid).dx / 2 ∧
        (mkBBox p ps lid).cy - (mkBBox p ps lid).dy / 2 ≤ q.2.1 ∧
        q.2.1 ≤ (mkBBox p ps lid).cy + (mkBBox p ps lid).dy / 2 ∧
        (mkBBox p ps lid).cz - (mkBBox p ps lid).dz / 2 ≤ q.2.2 ∧
        q.2.2 ≤ (mkBBox p ps lid).cz + (mkBBox p ps lid).dz / 2 := by
  have hcx : (mkBBox p ps lid).cx =
      ((ps.map (fun q => q.1)).foldl min p.1 +
        (ps.map (fun q => q.1)).foldl max p.1) / 2 := rfl
  have hdx : (mkBBox p ps lid).dx =
      (ps.map (fun q => q.1)).foldl max p.1 -
        (ps.map (fun q => q.1)).foldl min p.1 := rfl
  have hcy : (mkBBox p ps lid).cy =
      ((ps.map (fun q => q.2.1)).foldl min p.2.1 +
        (ps.map (fun q => q.2.1)).foldl max p.2.1) / 2 := rfl
  have hdy : (mkBBox p ps lid).dy =
      (ps.map (fun q => q.2.1)).foldl max p.2.1 -
        (ps.map (fun q => q.2.1)).foldl min p.2.1 := rfl
  have hcz : (mkBBox p ps lid).cz =
      ((ps.map (fun q => q.2.2)).foldl min p.2.2 +
        (ps.map (fun q => q.2.2)).foldl max p.2.2) / 2 := rfl
  have hdz : (mkBBox p ps lid).dz =
      (ps.map (fun q => q.2.2)).foldl max p.2.2 -
        (ps.map (fun q => q.2.2)).foldl min p.2.2 := rfl
  obtain ⟨hx1, hx2⟩ := axis_bounds (fun q => q.1) p ps p
    (List.mem_cons_self _ _)
  obtain ⟨hy1, hy2⟩ := axis_bounds (fun q => q.2.1) p ps p
    (List.mem_cons_self _ _)
  obtain ⟨hz1, hz2⟩ := axis_bounds (fun q => q.2.2) p ps p
    (List.mem_cons_self _ _)
  refine ⟨by rw [hdx]; linarith, by rw [hdy]; linarith,
    by rw [hdz]; linarith, ?_⟩
  intro q hq
  obtain ⟨hqx1, hqx2⟩ := axis_bounds (fun q => q.1) p ps q hq
  obtain ⟨hqy1, hqy2⟩ := axis_bounds (fun q => q.2.1) p ps q hq
  obtain ⟨hqz1, hqz2⟩ := axis_bounds (fun q => q.2.2) p ps q hq
  rw [hcx, hdx, hcy, hdy, hcz, hdz]
  refine ⟨by linarith, by linarith, by linarith, by linarith,
    by linarith, by linarith⟩

/-- C5: for every object instance with at least one member vertex, the
bounding box `export` writes at row `object_id - 1` contains every
member vertex position in `[center - extent/2, center + extent/2]` on
each axis, and the three extent components are nonnegative.
Well-formedness hypothesis: source object ids are 0-indexed
(nonnegative). -/
theorem c5_bbox_contains_members (mesh : List V6)
    (metaLines : List (List Char)) (groups : List AggGroup)
    (segIndices : List ℤ) (labelRows : List (String × String))
    (out : ExportOut) (hoid : ∀ g ∈ groups, 0 ≤ g.objectId)
    (hok : exportScene mesh metaLines groups segIndices labelRows =
      .ok out)
    (e : ℤ × List ℤ) (he : e ∈ (readAggregation groups).1)
    (p : ℚ × ℚ × ℚ) (ps : List (ℚ × ℚ × ℚ))
    (hmem : memberPosList out.vertices out.insLabels e.1 = p :: ps) :
    ∃ row, out.bboxes.get? ((e.1 - 1).toNat) = some row ∧
      0 ≤ row.dx ∧ 0 ≤ row.dy ∧ 0 ≤ row.dz ∧
      ∀ q ∈ memberPosList out.vertices out.insLabels e.1,
        row.cx - row.dx / 2 ≤ q.1 ∧ q.1 ≤ row.cx + row.dx / 2 ∧
        row.cy - row.dy / 2 ≤ q.2.1 ∧ q.2.1 ≤ row.cy + row.dy / 2 ∧
        row.cz - row.dz / 2 ≤ q.2.2 ∧ q.2.2 ≤ row.cz + row.dz / 2 := by
  obtain ⟨lm, M, lids, iids, o2l, bbs, h1, h2, h3, h4, h5, rfl⟩ :=
    exportScene_inv mesh metaLines groups segIndices labelRows out hok
  have hnd := readAggregation_keys_nodup groups
  have hpos : ∀ e' ∈ (readAggregation groups).1, 1 ≤ e'.1 := by
    intro e' he'
    obtain ⟨g', hg', hkey'⟩ := readAggregation_keys groups e' he'
    have := hoid g' hg'
    omega
  obtain ⟨hlen, hml, hframe, hrows⟩ :=
    bboxLoop_spec _ _ _ _ _ _ h5 hnd hpos
  obtain ⟨lid, hfo, hbound, hrow⟩ := hrows e he p ps hmem
  refine ⟨mkBBox p ps lid, hrow, ?_⟩
  obtain ⟨hbx, hby, hbz, hq⟩ := mkBBox_bounds p ps lid
  refine ⟨hbx, hby, hbz, ?_⟩
  intro q hqmem
  rw [hmem] at hqmem
  exact hq q hqmem

/-- Witness for C5 on the concrete scene: object id 1 with member
positions `(1,2,3)` and `(4,5,6)`. -/
theorem c5_witness :
    (∀ g ∈ groups0, 0 ≤ g.objectId) ∧
      exportScene mesh0 [metaLine0] groups0 segIdx0 rows0 = .ok out0 ∧
      ((1, [7]) : ℤ × List ℤ) ∈ (readAggregation groups0).1 ∧
      memberPosList out0.vertices out0.insLabels 1 =
        [(1, 2, 3), (4, 5, 6)] ∧
      ∃ row, out0.bboxes.get? (((1 : ℤ) - 1).toNat) = some row ∧
        0 ≤ row.dx ∧ 0 ≤ row.dy ∧ 0 ≤ row.dz ∧
        ∀ q ∈ memberPosList out0.vertices out0.insLabels 1,
          row.cx - row.dx / 2 ≤ q.1 ∧ q.1 ≤ row.cx + row.dx / 2 ∧
          row.cy - row.dy / 2 ≤ q.2.1 ∧ q.2.1 ≤ row.cy + row.dy / 2 ∧
          row.cz - row.dz / 2 ≤ q.2.2 ∧ q.2.2 ≤ row.cz + row.dz / 2 :=
  ⟨by decide, by with_unfolding_all rfl, by decide,
    by with_unfolding_all rfl,
    c5_bbox_contains_members mesh0 [metaLine0] groups0 segIdx0 rows0
      out0 (by decide) (by with_unfolding_all rfl) (1, [7]) (by decide)
      (1, 2, 3) [(4, 5, 6)] (by with_unfolding_all rfl)⟩
